import Mathlib

/-!
# Verification of the `multi_index_lru` cache

Shallow embedding of the repository's two cache classes:

* `multi_index_lru::Container` (src/include/multi_index_lru/container.hpp) —
  an LRU container over `boost::multi_index_container` with a hidden
  sequenced index at position 0 acting as the Recency List (head = most
  recently used, back = least recently used).

* `multi_index_lru::ExpirableContainer`
  (src/include/multi_index_lru/expirable_container.hpp) — the TTL wrapper
  storing `detail::TimestampedValue<Value>` envelopes.

Modelling conventions, matching the source:

* The container state is the sequenced (Recency) list itself; the other
  boost indices are views over the same node set, so lookups are modelled
  as functions of the list.  An element's membership in "all indices" and
  in the Recency List is therefore one and the same fact (boost erasure
  through any index removes the node from every index, which the single
  list captures exactly).
* A unique-key collision test for `emplace` is a boolean `conflict`
  relation (an element of the container conflicts with the candidate when
  some unique index maps both to the same key).  boost's
  `sequenced::emplace_front` returns `(iterator-to-banning-element, false)`
  on collision and discards the newly constructed value; the banning
  element is modelled as the first conflicting element.
* Index lookups (`find`, `equal_range`) are keyed by a projection; a tag's
  index is modelled by the predicate `key-of-element = searched key`.
  For an ordered non-unique boost index, elements with equal keys sit in
  insertion order (inserts hint to the upper bound of the equal range), so
  the envelope model carries an insertion stamp `ins` and index ranges are
  sorted by it.
* Machine integers: sizes and times are `Nat` (capacities and
  `std::chrono` millisecond counts never overflow in any scenario the
  claims quantify over); the TTL argument of the constructor / `set_ttl`
  is `Int`, since `std::chrono::milliseconds` is signed and the claims are
  about non-positive values.
-/

namespace MILru

/-! ## Base container (`multi_index_lru::Container`) -/

/-- State of a `Container<Value, ...>`: the sequenced index (Recency List,
head = most recently used) plus the stored capacity `max_size_`. -/
structure CState (V : Type) where
  seq : List V
  cap : Nat
deriving DecidableEq, Repr

/-- `Container::size()`. -/
def CState.size (s : CState V) : Nat := s.seq.length

/-- `Container::capacity()`. -/
def CState.capacity (s : CState V) : Nat := s.cap

/-- `Container::empty()`. -/
def CState.isEmpty (s : CState V) : Bool := s.seq.isEmpty

/-- `Container::emplace(args...)`:
`emplace_front` the new value; on unique-key collision (`!result.second`)
relocate the banning element to the front; otherwise, if the size now
exceeds `max_size_`, `pop_back()` once.  Returns `result.second`
(`true` iff newly inserted). -/
def emplace (conflict : V → V → Bool) (v : V) (s : CState V) : CState V × Bool :=
  match s.seq.find? (fun w => conflict w v) with
  | some w => ({ s with seq := w :: s.seq.eraseP (fun w => conflict w v) }, false)
  | none =>
      ({ s with
          seq := if s.cap < (v :: s.seq).length
            then (v :: s.seq).dropLast else v :: s.seq }, true)

/-- `Container::insert(value)`, a thin wrapper over `emplace`. -/
def insertC (conflict : V → V → Bool) (v : V) (s : CState V) : CState V × Bool :=
  emplace conflict v s

/-- `Container::find<Tag>(key)`: look the key up in the tag's index
(modelled by the match predicate `p`); on a hit, relocate the element to
the front of the sequenced index and return it; on a miss return `end()`
(`none`). -/
def findC (p : V → Bool) (s : CState V) : CState V × Option V :=
  match s.seq.find? p with
  | some w => ({ s with seq := w :: s.seq.eraseP p }, some w)
  | none => (s, none)

/-- `Container::contains<Tag>(key)`: delegates to `find`, so it has the
same recency-refreshing side effect. -/
def containsC (p : V → Bool) (s : CState V) : CState V × Bool :=
  let r := findC p s
  (r.1, r.2.isSome)

/-- `Container::erase<Tag>(key)`: `get<Tag>().erase(key) > 0`.  boost's
key-based erase removes *every* element with that key (non-unique indices
included) and returns the count. -/
def eraseC (p : V → Bool) (s : CState V) : CState V × Bool :=
  ({ s with seq := s.seq.filter (fun w => !(p w)) }, decide (0 < s.seq.countP p))

/-- `Container::set_capacity(new_capacity)`: store the new capacity, then
`pop_back()` while `size() > max_size_` — i.e. keep the first
`new_capacity` elements of the Recency List. -/
def setCapacityC (n : Nat) (s : CState V) : CState V :=
  { seq := s.seq.take n, cap := n }

/-- `Container::clear()`. -/
def clearC (s : CState V) : CState V :=
  { s with seq := [] }

/-- One public operation on a `Container` (the key-based operations carry
the predicate their tag/key pair induces on stored values). -/
inductive COp (V : Type) where
  | emplace (v : V)
  | insert (v : V)
  | find (p : V → Bool)
  | contains (p : V → Bool)
  | erase (p : V → Bool)
  | setCapacity (n : Nat)
  | clear

/-- State transition of one public `Container` operation. -/
def cstep (conflict : V → V → Bool) (s : CState V) : COp V → CState V
  | .emplace v => (emplace conflict v s).1
  | .insert v => (insertC conflict v s).1
  | .find p => (findC p s).1
  | .contains p => (containsC p s).1
  | .erase p => (eraseC p s).1
  | .setCapacity n => setCapacityC n s
  | .clear => clearC s

/-- Run a sequence of public operations. -/
def crun (conflict : V → V → Bool) (s : CState V) (ops : List (COp V)) : CState V :=
  ops.foldl (cstep conflict) s

/-! ## TTL wrapper (`multi_index_lru::ExpirableContainer`)

The wrapper stores `detail::TimestampedValue<Value>` envelopes.  That
helper struct is referenced by expirable_container.hpp and by the tests
but its definition is not among the provided sources; modelled from the
spec (§3 "Envelope (TTL mode only) — `{ value: Item, last_accessed:
Timestamp }`", §4.2 "inserts `Envelope{payload, now}`").  The `ins` field
is the model's stand-in for the element's tie-break position inside an
ordered non-unique boost index (equal keys sit in insertion order); it
has no counterpart field in C++, where the tree structure itself encodes
that order. -/

/-- Envelope stored by the TTL wrapper: payload plus (mutable)
`last_accessed` timestamp, with the insertion stamp `ins` ordering
equal-key elements inside an index. -/
structure Entry (V : Type) where
  value : V
  last_accessed : Nat
  ins : Nat
deriving DecidableEq, Repr

/-- State of an `ExpirableContainer<Value, ...>`: the Recency List of
envelopes, the capacity and TTL (milliseconds, validated positive), and
the next insertion stamp. -/
structure EState (V : Type) where
  seq : List (Entry V)
  cap : Nat
  ttl : Nat
  nextIns : Nat
deriving DecidableEq, Repr

/-- `ExpirableContainer::size()`. -/
def EState.size (s : EState V) : Nat := s.seq.length

/-- The expiry test `now > it->last_accessed + ttl_`. -/
def expired (ttl now : Nat) (e : Entry V) : Bool :=
  decide (e.last_accessed + ttl < now)

/-- Insert an entry into a list ordered by insertion stamp. -/
def insertByIns (e : Entry V) : List (Entry V) → List (Entry V)
  | [] => [e]
  | x :: xs => if e.ins ≤ x.ins then e :: x :: xs else x :: insertByIns e xs

/-- Sort a list of entries by insertion stamp: the order in which an
ordered non-unique boost index presents elements of one equal-key range. -/
def sortByIns : List (Entry V) → List (Entry V)
  | [] => []
  | x :: xs => insertByIns x (sortByIns xs)

/-- The elements of the tag's index whose key matches, in index order
(equal keys in insertion order). -/
def idxMatches (p : V → Bool) (s : EState V) : List (Entry V) :=
  sortByIns (s.seq.filter (fun e => p e.value))

/-- `index.find(key)`: the first matching element in index order
(`end()` = `none`). -/
def idxFind (p : V → Bool) (s : EState V) : Option (Entry V) :=
  (idxMatches p s).head?

/-- `ExpirableContainer::find<Tag>(key)`: look up via the Core's index;
on a hit, if expired erase the element (from every index, hence from the
one list) and return `end()`; otherwise set `last_accessed = now`,
relocate to the Recency front, and return the element. -/
def findE (p : V → Bool) (now : Nat) (s : EState V) : EState V × Option (Entry V) :=
  match idxFind p s with
  | none => (s, none)
  | some e =>
      if expired s.ttl now e then
        ({ s with seq := s.seq.eraseP (fun x => x.ins == e.ins) }, none)
      else
        let e2 := { e with last_accessed := now }
        ({ s with seq := e2 :: s.seq.eraseP (fun x => x.ins == e.ins) }, some e2)

/-- `ExpirableContainer::find_no_update<Tag>(key)` delegates to
`Container::find_no_update`, which is not among the provided sources.
Modelled from the spec: "same lookup, but never checks TTL and never
refreshes timestamp or recency; may surface an item that is logically
expired" — a pure lookup leaving the state untouched. -/
def findNoUpdate (p : V → Bool) (s : EState V) : EState V × Option (Entry V) :=
  (s, idxFind p s)

/-- One step of the `equal_range` scan loop: an expired element is erased
(`it = index.erase(it)`, setting the `changed` flag); a live element gets
`last_accessed = now` and is relocated to the Recency front. -/
def sweep (ttl now : Nat) (acc : List (Entry V) × Bool) (m : Entry V) :
    List (Entry V) × Bool :=
  if expired ttl now m then
    (acc.1.eraseP (fun x => x.ins == m.ins), true)
  else
    ({ m with last_accessed := now } :: acc.1.eraseP (fun x => x.ins == m.ins), acc.2)

/-- `ExpirableContainer::equal_range<Tag>(key)`: walk the index's equal
range once, erasing expired elements and refreshing live ones; if any
erasure occurred, recompute the range from scratch before returning it.
(When nothing was erased the C++ code returns the original iterator pair;
the elements they delimit are exactly the matches, each now carrying the
refreshed timestamp, which is what the returned list holds.) -/
def equalRangeE (p : V → Bool) (now : Nat) (s : EState V) :
    EState V × List (Entry V) :=
  let ms := idxMatches p s
  let res := ms.foldl (sweep s.ttl now) (s.seq, false)
  ({ s with seq := res.1 },
    if res.2 then sortByIns (res.1.filter (fun e => p e.value))
    else ms.map (fun m => { m with last_accessed := now }))

/-- `ExpirableContainer::equal_range_no_update<Tag>(key)` delegates to
`Container::equal_range_no_update`, not among the provided sources.
Modelled from the spec: "mirrors `find_no_update`: no expiration checks,
no refreshes". -/
def equalRangeNoUpdate (p : V → Bool) (s : EState V) : EState V × List (Entry V) :=
  (s, idxMatches p s)

/-- `ExpirableContainer::emplace(args...)`: `emplace_front` a fresh
envelope stamped `now` (the envelope constructor's timestamp is modelled
from the spec, §4.2: "inserts `Envelope{payload, now}`"); on collision
set the banning element's `last_accessed = now` and relocate it to the
front; otherwise `pop_back()` once if over capacity.  Returns the
`result.second` boolean (`true` iff newly inserted). -/
def emplaceE (conflict : V → V → Bool) (v : V) (now : Nat) (s : EState V) :
    EState V × Bool :=
  match s.seq.find? (fun e => conflict e.value v) with
  | some e =>
      ({ s with
          seq := { e with last_accessed := now } ::
            s.seq.eraseP (fun e => conflict e.value v) }, false)
  | none =>
      ({ s with
          seq := if s.cap < ((⟨v, now, s.nextIns⟩ : Entry V) :: s.seq).length
            then ((⟨v, now, s.nextIns⟩ : Entry V) :: s.seq).dropLast
            else (⟨v, now, s.nextIns⟩ : Entry V) :: s.seq,
          nextIns := s.nextIns + 1 }, true)

/-- `ExpirableContainer::contains<Tag>(key)`: delegates to `find`, so it
expires/refreshes exactly as `find` does. -/
def containsE (p : V → Bool) (now : Nat) (s : EState V) : EState V × Bool :=
  let r := findE p now s
  (r.1, r.2.isSome)

/-- `ExpirableContainer::erase<Tag>(key)`: delegates to
`Container::erase`, i.e. key-based boost erase of every matching element. -/
def eraseE (p : V → Bool) (s : EState V) : EState V × Bool :=
  ({ s with seq := s.seq.filter (fun e => !(p e.value)) },
    decide (0 < s.seq.countP (fun e => p e.value)))

/-- `ExpirableContainer::set_capacity`: delegates to
`Container::set_capacity`. -/
def setCapacityE (n : Nat) (s : EState V) : EState V :=
  { s with seq := s.seq.take n, cap := n }

/-- `ExpirableContainer::clear()`. -/
def clearE (s : EState V) : EState V :=
  { s with seq := [] }

/-- `ExpirableContainer::cleanup_expired()`: while the container is
non-empty and the Recency back (`rbegin()`) is expired, `pop_back()`;
stop at the first non-expired back element. -/
def cleanupExpired (now : Nat) (s : EState V) : EState V :=
  { s with seq := ((s.seq.reverse.dropWhile (expired s.ttl now)).reverse : List (Entry V)) }

/-- `ExpirableContainer::ExpirableContainer(max_size, ttl)`: the
constructor `assert`s `ttl.count() > 0` — a non-positive TTL is a fatal
contract violation of the call, so construction with one never yields a
container state. -/
def mkExpirable (V : Type) (maxSize : Nat) (ttlMs : Int) : Except String (EState V) :=
  if ttlMs ≤ 0 then .error "TTL must be positive"
  else .ok { seq := [], cap := maxSize, ttl := ttlMs.toNat, nextIns := 0 }

/-- `ExpirableContainer::set_ttl(new_ttl)`: `assert`s `new_ttl.count() > 0`;
on a valid value only the stored TTL changes (existing timestamps are
untouched). -/
def setTtl (ttlMs : Int) (s : EState V) : Except String (EState V) :=
  if ttlMs ≤ 0 then .error "TTL must be positive"
  else .ok { s with ttl := ttlMs.toNat }

/-- One public operation on an `ExpirableContainer`.  Operations that read
the clock carry the value `clock_type::now()` returned inside the call. -/
inductive EOp (V : Type) where
  | emplace (v : V) (now : Nat)
  | insert (v : V) (now : Nat)
  | find (p : V → Bool) (now : Nat)
  | findNoUpdate (p : V → Bool)
  | equalRange (p : V → Bool) (now : Nat)
  | equalRangeNoUpdate (p : V → Bool)
  | contains (p : V → Bool) (now : Nat)
  | erase (p : V → Bool)
  | setCapacity (n : Nat)
  | setTtl (t : Int)
  | cleanup (now : Nat)
  | clear

/-- The clock value an operation could write into `last_accessed`
(`none` for the operations that never touch timestamps). -/
def EOp.accessTime : EOp V → Option Nat
  | .emplace _ now => some now
  | .insert _ now => some now
  | .find _ now => some now
  | .equalRange _ now => some now
  | .contains _ now => some now
  | _ => none

/-- State transition of one public `ExpirableContainer` operation.  A
`set_ttl` with an invalid argument aborts (assert); the state it leaves
behind is the unchanged one. -/
def estep (conflict : V → V → Bool) (s : EState V) : EOp V → EState V
  | .emplace v now => (emplaceE conflict v now s).1
  | .insert v now => (emplaceE conflict v now s).1
  | .find p now => (findE p now s).1
  | .findNoUpdate p => (findNoUpdate p s).1
  | .equalRange p now => (equalRangeE p now s).1
  | .equalRangeNoUpdate p => (equalRangeNoUpdate p s).1
  | .contains p now => (containsE p now s).1
  | .erase p => (eraseE p s).1
  | .setCapacity n => setCapacityE n s
  | .setTtl t => match setTtl t s with | .ok s2 => s2 | .error _ => s
  | .cleanup now => cleanupExpired now s
  | .clear => clearE s

/-- Run a sequence of public `ExpirableContainer` operations. -/
def erun (conflict : V → V → Bool) (s : EState V) (ops : List (EOp V)) : EState V :=
  ops.foldl (estep conflict) s

/-- Well-formedness of an `ExpirableContainer` state, true of every state
the public interface can produce: entry identities (insertion stamps) are
pairwise distinct and below the next stamp to be handed out.  In C++ this
is the fact that every index node is one distinct `TimestampedValue`
object. -/
def wfE (s : EState V) : Prop :=
  (s.seq.map Entry.ins).Nodup ∧ ∀ e ∈ s.seq, e.ins < s.nextIns

/-- The steady clock discipline of a trace: starting from lower bound
`T`, each operation's internally read `clock_type::now()` is at least the
previous one (`std::chrono::steady_clock` never goes back). -/
def clockLE (T : Nat) : List (EOp V) → Bool
  | [] => true
  | op :: ops =>
      match op.accessTime with
      | none => clockLE T ops
      | some t => decide (T ≤ t) && clockLE t ops

/-- The entries of `l` whose insertion stamp belongs to none of the
entries of `ms` — what remains of a node list after the elements of an
index range `ms` are taken out of it. -/
def dropMatchesIns (ms l : List (Entry V)) : List (Entry V) :=
  l.filter (fun x => !(ms.any (fun m => x.ins == m.ins)))

end MILru

/-! ## Helper lemmas -/

theorem mem_of_head?_eq_some {l : List α} {a : α} (h : l.head? = some a) : a ∈ l := by
  cases l with
  | nil => simp at h
  | cons x xs =>
    have hx : x = a := by simpa using h
    subst hx
    exact List.mem_cons_self x xs

theorem mem_of_mem_eraseP {p : α → Bool} {l : List α} {x : α}
    (h : x ∈ l.eraseP p) : x ∈ l :=
  (List.eraseP_sublist l).mem h

theorem mem_eraseP_of_not {p : α → Bool} {l : List α} {x : α}
    (h : x ∈ l) (hx : p x = false) : x ∈ l.eraseP p := by
  induction l with
  | nil => simp at h
  | cons a l ih =>
    rw [List.eraseP_cons]
    rcases List.mem_cons.mp h with rfl | hmem
    · simp [hx]
    · by_cases ha : p a
      · simpa [ha] using hmem
      · simp only [ha]
        exact List.mem_cons_of_mem a (ih hmem)

theorem length_eraseP_of_found {p : α → Bool} {l : List α} {x : α}
    (h : x ∈ l) (hx : p x = true) : (l.eraseP p).length + 1 = l.length := by
  have := List.length_eraseP_of_mem h hx
  have hpos : 0 < l.length := List.length_pos.mpr (by rintro rfl; simp at h)
  omega

theorem eraseP_ins_not_mem {i : Nat} :
    ∀ (l : List (MILru.Entry V)), (l.map MILru.Entry.ins).Nodup →
      ∀ x ∈ l.eraseP (fun e => e.ins == i), x.ins ≠ i := by
  intro l
  induction l with
  | nil => intro _ x hx; simp at hx
  | cons a l ih =>
    intro hN x hx
    rw [List.eraseP_cons] at hx
    simp only [List.map_cons, List.nodup_cons] at hN
    by_cases ha : a.ins = i
    · simp only [ha, beq_self_eq_true, if_pos] at hx
      intro hxi
      exact hN.1 (by simpa [hxi, ha] using List.mem_map_of_mem MILru.Entry.ins hx)
    · have hbeq : (a.ins == i) = false := by simp [ha]
      rw [hbeq] at hx
      simp only [cond_false] at hx
      rcases List.mem_cons.mp hx with rfl | hmem
      · exact ha
      · exact ih hN.2 x hmem

theorem nodup_ins_eraseP {p : MILru.Entry V → Bool} {l : List (MILru.Entry V)}
    (h : (l.map MILru.Entry.ins).Nodup) :
    ((l.eraseP p).map MILru.Entry.ins).Nodup :=
  (((List.eraseP_sublist l).map MILru.Entry.ins)).nodup h

namespace MILru

theorem insertByIns_perm (e : Entry V) (l : List (Entry V)) :
    (insertByIns e l).Perm (e :: l) := by
  induction l with
  | nil => simp [insertByIns]
  | cons x xs ih =>
    by_cases h : e.ins ≤ x.ins
    · simp [insertByIns, h]
    · simp only [insertByIns, h, if_neg, not_false_eq_true]
      exact (ih.cons x).trans (List.Perm.swap e x xs)

theorem sortByIns_perm (l : List (Entry V)) : (sortByIns l).Perm l := by
  induction l with
  | nil => simp [sortByIns]
  | cons x xs ih =>
    exact (insertByIns_perm x (sortByIns xs)).trans (ih.cons x)

theorem mem_sortByIns {l : List (Entry V)} {x : Entry V} :
    x ∈ sortByIns l ↔ x ∈ l :=
  (sortByIns_perm l).mem_iff

theorem idxFind_mem {p : V → Bool} {s : EState V} {e : Entry V}
    (h : idxFind p s = some e) : e ∈ s.seq ∧ p e.value = true := by
  have hmem : e ∈ idxMatches p s := mem_of_head?_eq_some h
  have : e ∈ s.seq.filter (fun e => p e.value) := mem_sortByIns.mp hmem
  exact ⟨List.mem_of_mem_filter this, (List.mem_filter.mp this).2⟩

theorem idxFind_eq_none {p : V → Bool} {s : EState V}
    (h : ∀ e ∈ s.seq, p e.value = false) : idxFind p s = none := by
  unfold idxFind idxMatches
  have : s.seq.filter (fun e => p e.value) = [] := by
    rw [List.filter_eq_nil_iff]
    intro e he
    simp [h e he]
  rw [this]
  rfl

end MILru

/-! ## Claim theorems -/

namespace MILru

theorem cstep_size_le (conflict : V → V → Bool) (s : CState V) (op : COp V)
    (h : s.size ≤ s.capacity) :
    (cstep conflict s op).size ≤ (cstep conflict s op).capacity := by
  replace h : s.seq.length ≤ s.cap := h
  cases op with
  | emplace v | insert v =>
    show (emplace conflict v s).1.size ≤ (emplace conflict v s).1.capacity
    unfold emplace
    cases hf : s.seq.find? (fun w => conflict w v) with
    | some w =>
      have hmem := List.mem_of_find?_eq_some hf
      have hpw := List.find?_some hf
      simp only [CState.size, CState.capacity, List.length_cons]
      rw [length_eraseP_of_found hmem hpw]
      exact h
    | none =>
      simp only [CState.size, CState.capacity]
      by_cases hc : s.cap < (v :: s.seq).length
      · rw [if_pos hc]
        simp only [List.length_dropLast, List.length_cons]
        simp only [List.length_cons] at hc
        omega
      · rw [if_neg hc]
        simp only [List.length_cons] at hc ⊢
        omega
  | find p =>
    show (findC p s).1.size ≤ (findC p s).1.capacity
    unfold findC
    cases hf : s.seq.find? p with
    | some w =>
      have hmem := List.mem_of_find?_eq_some hf
      have hpw := List.find?_some hf
      simp only [CState.size, CState.capacity, List.length_cons]
      rw [length_eraseP_of_found hmem hpw]
      exact h
    | none => exact h
  | contains p =>
    show ((containsC p s).1).size ≤ ((containsC p s).1).capacity
    unfold containsC findC
    cases hf : s.seq.find? p with
    | some w =>
      have hmem := List.mem_of_find?_eq_some hf
      have hpw := List.find?_some hf
      simp only [CState.size, CState.capacity, List.length_cons]
      rw [length_eraseP_of_found hmem hpw]
      exact h
    | none => exact h
  | erase p =>
    show (eraseC p s).1.size ≤ (eraseC p s).1.capacity
    simp only [eraseC, CState.size, CState.capacity]
    exact le_trans (List.length_filter_le _ _) h
  | setCapacity n =>
    simp only [cstep, setCapacityC, CState.size, CState.capacity, List.length_take]
    omega
  | clear =>
    simp [cstep, clearC, CState.size, CState.capacity]

/-- C3: after every public operation `size() <= capacity()` is preserved
(hence holds along every operation sequence started from an empty cache
of capacity ≥ 1); an `emplace` of a fresh item into a full cache evicts
exactly the current Recency tail, leaving the size unchanged; and
`set_capacity` keeps only a prefix of the Recency List (tail-first
eviction) of length `min new_capacity size`, restoring
`size() <= capacity()` before returning. -/
theorem capacity_invariant :
    (∀ (V : Type) (conflict : V → V → Bool) (s : CState V) (op : COp V),
        s.size ≤ s.capacity →
          (cstep conflict s op).size ≤ (cstep conflict s op).capacity) ∧
    (∀ (V : Type) (conflict : V → V → Bool) (cap : Nat) (ops : List (COp V)),
        1 ≤ cap →
          (crun conflict ⟨[], cap⟩ ops).size ≤ (crun conflict ⟨[], cap⟩ ops).capacity) ∧
    (∀ (V : Type) (conflict : V → V → Bool) (s : CState V) (v : V),
        s.seq.find? (fun w => conflict w v) = none →
        s.size = s.capacity → s.seq ≠ [] →
          (emplace conflict v s).1.seq = v :: s.seq.dropLast ∧
          (emplace conflict v s).1.size = s.size) ∧
    (∀ (V : Type) (s : CState V) (n : Nat),
        (setCapacityC n s).size ≤ (setCapacityC n s).capacity ∧
        (setCapacityC n s).capacity = n ∧
        (setCapacityC n s).size = min n s.size ∧
        ∃ dropped, s.seq = (setCapacityC n s).seq ++ dropped) := by
  refine ⟨fun V conflict s op h => cstep_size_le conflict s op h, ?_, ?_, ?_⟩
  · intro V conflict cap ops hcap
    suffices h : ∀ s : CState V, s.size ≤ s.capacity →
        (crun conflict s ops).size ≤ (crun conflict s ops).capacity by
      exact h ⟨[], cap⟩ (by simp [CState.size, CState.capacity])
    induction ops with
    | nil => intro s hs; exact hs
    | cons a ops ih =>
      intro s hs
      exact ih (cstep conflict s a) (cstep_size_le conflict s a hs)
  · intro V conflict s v hf hfull hne
    unfold emplace
    rw [hf]
    have hlt : s.cap < (v :: s.seq).length := by
      simp only [List.length_cons]
      simp only [CState.size, CState.capacity] at hfull
      omega
    constructor
    · rw [if_pos hlt]
      exact List.dropLast_cons_of_ne_nil hne
    · simp only [CState.size]
      rw [if_pos hlt]
      simp only [List.length_dropLast, List.length_cons]
      omega
  · intro V s n
    refine ⟨?_, rfl, ?_, ⟨s.seq.drop n, (List.take_append_drop n s.seq).symm⟩⟩
    · simp only [setCapacityC, CState.size, CState.capacity, List.length_take]
      omega
    · simp only [setCapacityC, CState.size, List.length_take]

theorem capacity_invariant_witness :
    ((cstep (fun a b : Nat => a == b) ⟨[7], 1⟩ (COp.emplace 9)).size ≤
        (cstep (fun a b : Nat => a == b) ⟨[7], 1⟩ (COp.emplace 9)).capacity) ∧
    ((crun (fun a b : Nat => a == b) ⟨[], 1⟩
        [COp.emplace 5, COp.emplace 6, COp.find (fun v => v == 6)]).size ≤
      (crun (fun a b : Nat => a == b) ⟨[], 1⟩
        [COp.emplace 5, COp.emplace 6, COp.find (fun v => v == 6)]).capacity) ∧
    ((emplace (fun a b : Nat => a == b) 9 ⟨[7, 8], 2⟩).1.seq =
        9 :: ([7, 8] : List Nat).dropLast) :=
  ⟨capacity_invariant.1 Nat _ ⟨[7], 1⟩ (COp.emplace 9) (by decide),
   capacity_invariant.2.1 Nat _ 1 _ (by decide),
   (capacity_invariant.2.2.1 Nat _ ⟨[7, 8], 2⟩ 9 (by decide) (by decide)
      (by decide)).1⟩

/-- The P2 scenario cache: capacity 3, emplace `a=1, b=2, c=3`, then
`find(a)`, `find(c)`, then emplace a fresh `d=4`. -/
def scenarioP2 : CState Nat :=
  crun (fun a b => a == b) ⟨[], 3⟩
    [COp.emplace 1, COp.emplace 2, COp.emplace 3,
     COp.find (fun v => v == 1), COp.find (fun v => v == 3),
     COp.emplace 4]

/-- The P2 cache state just before the final emplace. -/
def scenarioP2pre : CState Nat :=
  crun (fun a b => a == b) ⟨[], 3⟩
    [COp.emplace 1, COp.emplace 2, COp.emplace 3,
     COp.find (fun v => v == 1), COp.find (fun v => v == 3)]

/-- C6: at capacity 3, after emplacing `a=1, b=2, c=3`, finding `a` then
`c`, and emplacing fresh `d=4`, exactly `b` has been evicted and the
Recency order head→tail is `d, c, a`; a successful `find` moves the found
item to the Recency head and returns it, and a failed `find` returns
none. -/
theorem lru_order_scenario :
    scenarioP2.seq = [4, 3, 1] ∧
    scenarioP2.seq.contains 2 = false ∧
    scenarioP2pre.seq = [3, 1, 2] ∧
    (findC (fun v => v == 1) ⟨[3, 2, 1], 3⟩).2 = some 1 ∧
    (findC (fun v => v == 1) ⟨[3, 2, 1], 3⟩).1.seq = [1, 3, 2] ∧
    (findC (fun v => v == 9) ⟨[3, 2, 1], 3⟩).2 = none := by
  decide

/-- The P3 scenario cache: 5 items inserted at capacity 5, then
`set_capacity(2)`. -/
def scenarioP3 : CState Nat :=
  crun (fun a b => a == b) ⟨[], 5⟩
    [COp.insert 1, COp.insert 2, COp.insert 3, COp.insert 4, COp.insert 5,
     COp.setCapacity 2]

/-- C7: after inserting 5 items at capacity 5 and `set_capacity(2)`, the
two most-recently-used items (5 then 4) survive and remain findable, the
three least-recently-used are gone, and `capacity() == 2`. -/
theorem capacity_shrink_scenario :
    scenarioP3.seq = [5, 4] ∧
    scenarioP3.size = 2 ∧
    scenarioP3.capacity = 2 ∧
    (findC (fun v => v == 5) scenarioP3).2 = some 5 ∧
    (findC (fun v => v == 4) scenarioP3).2 = some 4 ∧
    (findC (fun v => v == 1) scenarioP3).2 = none ∧
    (findC (fun v => v == 2) scenarioP3).2 = none ∧
    (findC (fun v => v == 3) scenarioP3).2 = none := by
  decide

/-- Values (unique key, payload) used to exhibit `emplace`'s behaviour on
a unique-key collision; two values conflict when their keys agree. -/
def keyConflict : Nat × Nat → Nat × Nat → Bool :=
  fun a b => a.1 == b.1

/-- C1, counterexample: emplacing `(1, 20)` into a cache holding `(1, 10)`
under a unique index on the first component returns the "existing"
outcome, but the stored payload stays `(1, 10)` — boost discards the new
value on a banned insertion — so the stored payload does *not* reflect
the latest emplace as the claim states. -/
theorem emplace_collision_counterexample :
    (emplace keyConflict (1, 20) ⟨[(1, 10)], 2⟩).2 = false ∧
    (emplace keyConflict (1, 20) ⟨[(1, 10)], 2⟩).1.seq = [(1, 10)] ∧
    (emplace keyConflict (1, 20) ⟨[(1, 10)], 2⟩).1.seq.contains (1, 20) = false := by
  decide

/-- C1, amended: on a unique-key collision `emplace` returns the
"existing" outcome (the fresh-insertion boolean is `false`), leaves
`size()` unchanged, and moves the existing item to the Recency head — but
the stored item keeps its original payload (the new payload is
discarded); in envelope (TTL) mode only the timestamp is refreshed, the
payload again staying the one first stored. -/
theorem emplace_collision_keeps_stored_payload :
    (∀ (V : Type) (conflict : V → V → Bool) (s : CState V) (v w : V),
        s.seq.find? (fun w => conflict w v) = some w →
          (emplace conflict v s).2 = false ∧
          (emplace conflict v s).1.size = s.size ∧
          (emplace conflict v s).1.seq.head? = some w ∧
          (∀ x ∈ (emplace conflict v s).1.seq, x ∈ s.seq)) ∧
    (∀ (V : Type) (conflict : V → V → Bool) (s : EState V) (v : V) (now : Nat)
        (e : Entry V),
        s.seq.find? (fun e => conflict e.value v) = some e →
          (emplaceE conflict v now s).2 = false ∧
          (emplaceE conflict v now s).1.size = s.size ∧
          (emplaceE conflict v now s).1.seq.head? =
            some { e with last_accessed := now } ∧
          (∀ x ∈ (emplaceE conflict v now s).1.seq,
            x.value = e.value ∧ x.last_accessed = now ∨
              ∃ y ∈ s.seq, x = y)) := by
  constructor
  · intro V conflict s v w hf
    have hmem := List.mem_of_find?_eq_some hf
    have hpw := List.find?_some hf
    unfold emplace
    rw [hf]
    refine ⟨rfl, ?_, rfl, ?_⟩
    · simp only [CState.size, List.length_cons]
      exact length_eraseP_of_found hmem hpw
    · intro x hx
      rcases List.mem_cons.mp hx with rfl | hx'
      · exact hmem
      · exact mem_of_mem_eraseP hx'
  · intro V conflict s v now e hf
    have hmem := List.mem_of_find?_eq_some hf
    have hpe := List.find?_some hf
    unfold emplaceE
    rw [hf]
    refine ⟨rfl, ?_, rfl, ?_⟩
    · simp only [EState.size, List.length_cons]
      exact length_eraseP_of_found hmem hpe
    · intro x hx
      rcases List.mem_cons.mp hx with rfl | hx'
      · exact Or.inl ⟨rfl, rfl⟩
      · exact Or.inr ⟨x, mem_of_mem_eraseP hx', rfl⟩

theorem emplace_collision_keeps_stored_payload_witness :
    ((emplace keyConflict (1, 20) ⟨[(1, 10)], 2⟩).2 = false ∧
      (emplace keyConflict (1, 20) ⟨[(1, 10)], 2⟩).1.size =
        (⟨[(1, 10)], 2⟩ : CState (Nat × Nat)).size ∧
      (emplace keyConflict (1, 20) ⟨[(1, 10)], 2⟩).1.seq.head? = some (1, 10)) ∧
    ((1, 10) ∈ (⟨[(1, 10)], 2⟩ : CState (Nat × Nat)).seq) ∧
    ((emplaceE (fun a b : Nat => a == b) 7 42 ⟨[⟨7, 5, 0⟩], 3, 80, 1⟩).2 = false) := by
  have h := emplace_collision_keeps_stored_payload.1 (Nat × Nat) keyConflict
    ⟨[(1, 10)], 2⟩ (1, 20) (1, 10) (by decide)
  exact ⟨⟨h.1, h.2.1, h.2.2.1⟩,
    h.2.2.2 (1, 10) (by decide),
    (emplace_collision_keeps_stored_payload.2 Nat (fun a b => a == b)
      ⟨[⟨7, 5, 0⟩], 3, 80, 1⟩ 7 42 ⟨7, 5, 0⟩ (by decide)).1⟩

/-- C10: key-based `erase<Tag>(key)` on a (possibly non-unique) index
removes every stored item whose key matches — all of them, from the one
node set that every index and the Recency List view — and returns `true`
iff at least one item was removed.  Stated for both `Container::erase`
and the delegating `ExpirableContainer::erase`. -/
theorem erase_removes_all_matches :
    (∀ (V : Type) (p : V → Bool) (s : CState V),
        (∀ x ∈ (eraseC p s).1.seq, p x = false) ∧
        (∀ x ∈ s.seq, p x = false → x ∈ (eraseC p s).1.seq) ∧
        ((eraseC p s).2 = true ↔ ∃ x ∈ s.seq, p x = true)) ∧
    (∀ (V : Type) (p : V → Bool) (s : EState V),
        (∀ x ∈ (eraseE p s).1.seq, p x.value = false) ∧
        (∀ x ∈ s.seq, p x.value = false → x ∈ (eraseE p s).1.seq) ∧
        ((eraseE p s).2 = true ↔ ∃ x ∈ s.seq, p x.value = true)) := by
  constructor
  · intro V p s
    refine ⟨?_, ?_, ?_⟩
    · intro x hx
      have := (List.mem_filter.mp hx).2
      simpa using this
    · intro x hx hpx
      exact List.mem_filter.mpr ⟨hx, by simp [hpx]⟩
    · simp only [eraseC, decide_eq_true_eq]
      exact List.countP_pos_iff
  · intro V p s
    refine ⟨?_, ?_, ?_⟩
    · intro x hx
      have := (List.mem_filter.mp hx).2
      simpa using this
    · intro x hx hpx
      exact List.mem_filter.mpr ⟨hx, by simp [hpx]⟩
    · simp only [eraseE, decide_eq_true_eq]
      exact List.countP_pos_iff

theorem erase_removes_all_matches_witness :
    ((fun v : Nat × Nat => v.1 == 1) (2, 20) = false) ∧
    ((2, 20) ∈ (eraseC (fun v : Nat × Nat => v.1 == 1)
        ⟨[(1, 10), (2, 20), (1, 30)], 5⟩).1.seq) ∧
    ((eraseC (fun v : Nat × Nat => v.1 == 1)
        ⟨[(1, 10), (2, 20), (1, 30)], 5⟩).2 = true) :=
  ⟨(erase_removes_all_matches.1 (Nat × Nat) (fun v => v.1 == 1)
      ⟨[(1, 10), (2, 20), (1, 30)], 5⟩).1 (2, 20) (by decide),
   (erase_removes_all_matches.1 (Nat × Nat) (fun v => v.1 == 1)
      ⟨[(1, 10), (2, 20), (1, 30)], 5⟩).2.1 (2, 20) (by decide) (by decide),
   (erase_removes_all_matches.1 (Nat × Nat) (fun v => v.1 == 1)
      ⟨[(1, 10), (2, 20), (1, 30)], 5⟩).2.2.mpr ⟨(1, 10), by decide, by decide⟩⟩

/-- C9: a non-positive TTL handed to the constructor or to `set_ttl` is a
fatal contract violation of that call (the `assert` fires immediately and
synchronously): neither ever produces a container configured with the
invalid value. -/
theorem ttl_validation (V : Type) (maxSize : Nat) (ttlMs : Int) (s : EState V)
    (h : ttlMs ≤ 0) :
    mkExpirable V maxSize ttlMs = .error "TTL must be positive" ∧
    setTtl ttlMs s = .error "TTL must be positive" ∧
    (∀ s2, mkExpirable V maxSize ttlMs ≠ .ok s2) ∧
    (∀ s2, setTtl ttlMs s ≠ .ok s2) := by
  refine ⟨?_, ?_, ?_, ?_⟩
  · simp [mkExpirable, h]
  · simp [setTtl, h]
  · intro s2
    simp [mkExpirable, h]
  · intro s2
    simp [setTtl, h]

theorem ttl_validation_witness :
    mkExpirable Nat 10 0 = .error "TTL must be positive" ∧
    setTtl (-5) (⟨[], 10, 80, 0⟩ : EState Nat) = .error "TTL must be positive" :=
  ⟨(ttl_validation Nat 10 0 ⟨[], 10, 80, 0⟩ (by decide)).1,
   (ttl_validation Nat 10 (-5) ⟨[], 10, 80, 0⟩ (by decide)).2.1⟩

theorem emplaceE_of_find?_some {conflict : V → V → Bool} {v : V} {now : Nat}
    {s : EState V} {e : Entry V}
    (h : s.seq.find? (fun e => conflict e.value v) = some e) :
    emplaceE conflict v now s =
      ({ s with
          seq := { e with last_accessed := now } ::
            s.seq.eraseP (fun e => conflict e.value v) }, false) := by
  unfold emplaceE
  rw [h]

theorem emplaceE_of_find?_none {conflict : V → V → Bool} {v : V} {now : Nat}
    {s : EState V}
    (h : s.seq.find? (fun e => conflict e.value v) = none) :
    emplaceE conflict v now s =
      ({ s with
          seq := if s.cap < ((⟨v, now, s.nextIns⟩ : Entry V) :: s.seq).length
            then ((⟨v, now, s.nextIns⟩ : Entry V) :: s.seq).dropLast
            else (⟨v, now, s.nextIns⟩ : Entry V) :: s.seq,
          nextIns := s.nextIns + 1 }, true) := by
  unfold emplaceE
  rw [h]

theorem findE_of_idxFind_some {p : V → Bool} {now : Nat} {s : EState V}
    {e : Entry V} (h : idxFind p s = some e) :
    findE p now s =
      if expired s.ttl now e then
        ({ s with seq := s.seq.eraseP (fun x => x.ins == e.ins) }, none)
      else
        ({ s with
            seq := { e with last_accessed := now } ::
              s.seq.eraseP (fun x => x.ins == e.ins) },
          some { e with last_accessed := now }) := by
  unfold findE
  rw [h]

/-- C2: the TTL wrapper's `find`.  If no stored item matches the key, the
state is untouched and none is returned.  If the index locates an item
and it is expired (`now > last_accessed + ttl`), the item is erased from
the one node set behind all indices and the Recency List — `size()`
decreases by one, no entry with its identity survives — and none is
returned.  If the located item is live, its `last_accessed` becomes
`now`, it is moved to the Recency head, it is the returned item, `size()`
is unchanged, and every other entry survives. -/
theorem expirable_find_spec (V : Type) (p : V → Bool) (now : Nat) (s : EState V)
    (hN : (s.seq.map Entry.ins).Nodup) :
    ((∀ e ∈ s.seq, p e.value = false) → findE p now s = (s, none)) ∧
    (∀ e, idxFind p s = some e → expired s.ttl now e = true →
        (findE p now s).2 = none ∧
        (findE p now s).1.size + 1 = s.size ∧
        (∀ x ∈ (findE p now s).1.seq, x ∈ s.seq ∧ x.ins ≠ e.ins)) ∧
    (∀ e, idxFind p s = some e → expired s.ttl now e = false →
        (findE p now s).2 = some { e with last_accessed := now } ∧
        (findE p now s).1.seq.head? = some { e with last_accessed := now } ∧
        (findE p now s).1.size = s.size ∧
        (∀ x ∈ s.seq, x.ins ≠ e.ins → x ∈ (findE p now s).1.seq)) := by
  refine ⟨?_, ?_, ?_⟩
  · intro habs
    unfold findE
    rw [idxFind_eq_none habs]
  · intro e hfind hexp
    have hmem := (idxFind_mem hfind).1
    rw [findE_of_idxFind_some hfind, if_pos hexp]
    refine ⟨rfl, ?_, ?_⟩
    · simp only [EState.size]
      exact length_eraseP_of_found hmem (by simp)
    · intro x hx
      exact ⟨mem_of_mem_eraseP hx, eraseP_ins_not_mem s.seq hN x hx⟩
  · intro e hfind hexp
    have hmem := (idxFind_mem hfind).1
    rw [findE_of_idxFind_some hfind, if_neg (by simp [hexp])]
    refine ⟨rfl, rfl, ?_, ?_⟩
    · simp only [EState.size, List.length_cons]
      exact length_eraseP_of_found hmem (by simp)
    · intro x hx hne
      exact List.mem_cons_of_mem _ (mem_eraseP_of_not hx (by simp [hne]))

theorem expirable_find_spec_witness :
    (findE (fun v : Nat => v == 9) 30 ⟨[⟨5, 0, 0⟩], 10, 50, 1⟩ =
      (⟨[⟨5, 0, 0⟩], 10, 50, 1⟩, none)) ∧
    ((findE (fun v : Nat => v == 5) 70 ⟨[⟨5, 0, 0⟩], 10, 50, 1⟩).2 = none ∧
      (findE (fun v : Nat => v == 5) 70 ⟨[⟨5, 0, 0⟩], 10, 50, 1⟩).1.size + 1 =
        (⟨[⟨5, 0, 0⟩], 10, 50, 1⟩ : EState Nat).size) ∧
    ((findE (fun v : Nat => v == 5) 30 ⟨[⟨5, 0, 0⟩], 10, 50, 1⟩).2 =
      some ⟨5, 30, 0⟩) :=
  ⟨(expirable_find_spec Nat (fun v => v == 9) 30 ⟨[⟨5, 0, 0⟩], 10, 50, 1⟩
      (by decide)).1 (by decide),
   ⟨((expirable_find_spec Nat (fun v => v == 5) 70 ⟨[⟨5, 0, 0⟩], 10, 50, 1⟩
        (by decide)).2.1 ⟨5, 0, 0⟩ (by decide) (by decide)).1,
    ((expirable_find_spec Nat (fun v => v == 5) 70 ⟨[⟨5, 0, 0⟩], 10, 50, 1⟩
        (by decide)).2.1 ⟨5, 0, 0⟩ (by decide) (by decide)).2.1⟩,
   ((expirable_find_spec Nat (fun v => v == 5) 30 ⟨[⟨5, 0, 0⟩], 10, 50, 1⟩
      (by decide)).2.2 ⟨5, 0, 0⟩ (by decide) (by decide)).1⟩

/-- The P6 scenario container: TTL 80ms, one item (value 7) inserted at
time 0. -/
def scenarioP6 : EState Nat :=
  (emplaceE (fun a b => a == b) 7 0 ⟨[], 100, 80, 0⟩).1

/-- An expirable container holding one entry that is logically expired at
time 100 (TTL 50, last accessed at 0). -/
def staleState : EState Nat :=
  ⟨[⟨5, 0, 0⟩], 10, 50, 1⟩

/-- C8: `find_no_update` never checks TTL, never erases, and never
modifies any timestamp or Recency position — the state it returns is the
input state, for every key and every state, and it can surface a
logically expired item.  In particular (P6): a `find_no_update` hit at
50ms into an 80ms TTL does not stop a later `find` at 100ms elapsed from
expiring the item and reporting it absent. -/
theorem find_no_update_frame :
    (∀ (V : Type) (p : V → Bool) (s : EState V),
        (findNoUpdate p s).1 = s ∧ (findNoUpdate p s).2 = idxFind p s) ∧
    ((findNoUpdate (fun v => v == 5) staleState).2 = some ⟨5, 0, 0⟩ ∧
      expired staleState.ttl 100 ⟨5, 0, 0⟩ = true) ∧
    ((findNoUpdate (fun v => v == 7) scenarioP6).1 = scenarioP6 ∧
      (findNoUpdate (fun v => v == 7) scenarioP6).2 = some ⟨7, 0, 0⟩ ∧
      (findE (fun v => v == 7) 100
          ((findNoUpdate (fun v => v == 7) scenarioP6).1)).2 = none ∧
      (findE (fun v => v == 7) 100
          ((findNoUpdate (fun v => v == 7) scenarioP6).1)).1.size = 0) := by
  refine ⟨fun V p s => ⟨rfl, rfl⟩, by decide, by decide⟩

theorem mem_sweep_foldl {ttl now : Nat} :
    ∀ (ms : List (Entry V)) (acc : List (Entry V) × Bool) (x : Entry V),
      x ∈ (ms.foldl (sweep ttl now) acc).1 → x ∈ acc.1 ∨ x.last_accessed = now := by
  intro ms
  induction ms with
  | nil => intro acc x hx; exact Or.inl hx
  | cons m ms ih =>
    intro acc x hx
    rcases ih (sweep ttl now acc m) x hx with hstep | hnow
    · unfold sweep at hstep
      by_cases hexp : expired ttl now m
      · rw [if_pos hexp] at hstep
        exact Or.inl (mem_of_mem_eraseP hstep)
      · rw [if_neg hexp] at hstep
        rcases List.mem_cons.mp hstep with rfl | hstep'
        · exact Or.inr rfl
        · exact Or.inl (mem_of_mem_eraseP hstep')
    · exact Or.inr hnow

theorem cleanupExpired_seq (now : Nat) (s : EState V) :
    (cleanupExpired now s).seq = (s.seq.reverse.dropWhile (expired s.ttl now)).reverse :=
  rfl

/-- Trace property: after any single public operation, every entry of
the resulting Recency List either is literally an entry of the previous
state (payload, timestamp and identity all unchanged) or carries
`last_accessed` equal to the clock value of that operation — and the only
operations with a clock value that can be written are the caller-visible
accesses (`find`, `contains`, `equal_range`) and `emplace`/`insert`. -/
theorem estep_entry_sources (conflict : V → V → Bool) (op : EOp V) (s : EState V) :
    ∀ x ∈ (estep conflict s op).seq,
      x ∈ s.seq ∨ ∃ t, op.accessTime = some t ∧ x.last_accessed = t := by
  cases op with
  | emplace v now | insert v now =>
    intro x hx
    have hx1 : x ∈ (emplaceE conflict v now s).1.seq := hx
    cases hf : s.seq.find? (fun e => conflict e.value v) with
    | some e =>
      rw [emplaceE_of_find?_some hf] at hx1
      rcases List.mem_cons.mp hx1 with rfl | hx'
      · exact Or.inr ⟨now, rfl, rfl⟩
      · exact Or.inl (mem_of_mem_eraseP hx')
    | none =>
      rw [emplaceE_of_find?_none hf] at hx1
      by_cases hc : s.cap < ((⟨v, now, s.nextIns⟩ : Entry V) :: s.seq).length
      · rw [if_pos hc] at hx1
        have hx2 := List.mem_of_mem_dropLast hx1
        rcases List.mem_cons.mp hx2 with rfl | hx'
        · exact Or.inr ⟨now, rfl, rfl⟩
        · exact Or.inl hx'
      · rw [if_neg hc] at hx1
        rcases List.mem_cons.mp hx1 with rfl | hx'
        · exact Or.inr ⟨now, rfl, rfl⟩
        · exact Or.inl hx'
  | find p now | contains p now =>
    intro x hx
    have hx' : x ∈ (findE p now s).1.seq := hx
    cases hfind : idxFind p s with
    | none =>
      unfold findE at hx'
      rw [hfind] at hx'
      exact Or.inl hx'
    | some e =>
      rw [findE_of_idxFind_some hfind] at hx'
      by_cases hexp : expired s.ttl now e
      · rw [if_pos hexp] at hx'
        exact Or.inl (mem_of_mem_eraseP hx')
      · rw [if_neg hexp] at hx'
        rcases List.mem_cons.mp hx' with rfl | hx''
        · exact Or.inr ⟨now, rfl, rfl⟩
        · exact Or.inl (mem_of_mem_eraseP hx'')
  | findNoUpdate p =>
    intro x hx
    exact Or.inl hx
  | equalRange p now =>
    intro x hx
    have hx' : x ∈ ((idxMatches p s).foldl (sweep s.ttl now) (s.seq, false)).1 := hx
    rcases mem_sweep_foldl (idxMatches p s) (s.seq, false) x hx' with h | h
    · exact Or.inl h
    · exact Or.inr ⟨now, rfl, h⟩
  | equalRangeNoUpdate p =>
    intro x hx
    exact Or.inl hx
  | erase p =>
    intro x hx
    exact Or.inl (List.mem_of_mem_filter hx)
  | setCapacity n =>
    intro x hx
    exact Or.inl (List.mem_of_mem_take hx)
  | setTtl t =>
    intro x hx
    refine Or.inl ?_
    by_cases ht : t ≤ 0
    · have hstep : estep conflict s (EOp.setTtl t) = s := by
        show (match setTtl t s with | .ok s2 => s2 | .error _ => s) = s
        unfold setTtl
        rw [if_pos ht]
      rwa [hstep] at hx
    · have hstep : estep conflict s (EOp.setTtl t) = { s with ttl := t.toNat } := by
        show (match setTtl t s with | .ok s2 => s2 | .error _ => s) = _
        unfold setTtl
        rw [if_neg ht]
      rw [hstep] at hx
      exact hx
  | cleanup now =>
    intro x hx
    have hx1 : x ∈ (s.seq.reverse.dropWhile (expired s.ttl now)).reverse := hx
    have h1 : x ∈ s.seq.reverse.dropWhile (expired s.ttl now) := List.mem_reverse.mp hx1
    have h2 : x ∈ s.seq.reverse := (List.dropWhile_sublist _).subset h1
    exact Or.inl (List.mem_reverse.mp h2)
  | clear =>
    intro x hx
    simp [estep, clearE] at hx

theorem expired_of_last_eq_now {ttl now : Nat} {x : Entry V}
    (h : x.last_accessed = now) : expired ttl now x = false := by
  simp only [expired, h, decide_eq_false_iff_not]
  omega

theorem sweep_nodup {ttl now : Nat} (acc : List (Entry V) × Bool) (m : Entry V)
    (h : (acc.1.map Entry.ins).Nodup) :
    ((sweep ttl now acc m).1.map Entry.ins).Nodup := by
  unfold sweep
  by_cases hexp : expired ttl now m
  · rw [if_pos hexp]
    exact nodup_ins_eraseP h
  · rw [if_neg hexp]
    simp only [List.map_cons, List.nodup_cons]
    refine ⟨?_, nodup_ins_eraseP h⟩
    intro hmem
    rcases List.mem_map.mp hmem with ⟨y, hy, hyi⟩
    exact eraseP_ins_not_mem acc.1 h y hy hyi

theorem sweep_foldl_stamp_absent {ttl now : Nat} :
    ∀ (ms : List (Entry V)) (acc : List (Entry V) × Bool) (i : Nat),
      (∀ m ∈ ms, m.ins ≠ i) → (∀ x ∈ acc.1, x.ins ≠ i) →
      ∀ x ∈ (ms.foldl (sweep ttl now) acc).1, x.ins ≠ i := by
  intro ms
  induction ms with
  | nil => intro acc i _ hacc x hx; exact hacc x hx
  | cons m ms ih =>
    intro acc i hms hacc x hx
    refine ih (sweep ttl now acc m) i
      (fun m' hm' => hms m' (List.mem_cons_of_mem m hm')) ?_ x hx
    intro y hy
    unfold sweep at hy
    by_cases hexp : expired ttl now m
    · rw [if_pos hexp] at hy
      exact hacc y (mem_of_mem_eraseP hy)
    · rw [if_neg hexp] at hy
      rcases List.mem_cons.mp hy with rfl | hy'
      · exact hms m (List.mem_cons_self m ms)
      · exact hacc y (mem_of_mem_eraseP hy')

theorem sweep_foldl_mem_preserved {ttl now : Nat} :
    ∀ (ms : List (Entry V)) (acc : List (Entry V) × Bool) (y : Entry V),
      (∀ m ∈ ms, m.ins ≠ y.ins) → y ∈ acc.1 →
      y ∈ (ms.foldl (sweep ttl now) acc).1 := by
  intro ms
  induction ms with
  | nil => intro acc y _ hy; exact hy
  | cons m ms ih =>
    intro acc y hms hy
    refine ih (sweep ttl now acc m) y
      (fun m' hm' => hms m' (List.mem_cons_of_mem m hm')) ?_
    have hne : y.ins ≠ m.ins := Ne.symm (hms m (List.mem_cons_self m ms))
    unfold sweep
    by_cases hexp : expired ttl now m
    · rw [if_pos hexp]
      exact mem_eraseP_of_not hy (by simp [hne])
    · rw [if_neg hexp]
      exact List.mem_cons_of_mem _ (mem_eraseP_of_not hy (by simp [hne]))

theorem sweep_foldl_spec {ttl now : Nat} :
    ∀ (ms : List (Entry V)) (acc : List (Entry V) × Bool),
      (acc.1.map Entry.ins).Nodup → (ms.map Entry.ins).Nodup →
      ∀ m ∈ ms,
        (expired ttl now m = true →
          ∀ x ∈ (ms.foldl (sweep ttl now) acc).1, x.ins ≠ m.ins) ∧
        (expired ttl now m = false →
          { m with last_accessed := now } ∈ (ms.foldl (sweep ttl now) acc).1) := by
  intro ms
  induction ms with
  | nil => intro acc _ _ m hm; cases hm
  | cons m0 ms ih =>
    intro acc hacc hms m hm
    simp only [List.map_cons, List.nodup_cons] at hms
    rcases List.mem_cons.mp hm with rfl | hm'
    · constructor
      · intro hexp x hx
        refine sweep_foldl_stamp_absent ms (sweep ttl now acc m) m.ins ?_ ?_ x hx
        · intro m' hm'' heq
          exact hms.1 (heq ▸ List.mem_map_of_mem Entry.ins hm'')
        · intro y hy
          unfold sweep at hy
          rw [if_pos hexp] at hy
          exact eraseP_ins_not_mem acc.1 hacc y hy
      · intro hexp
        refine sweep_foldl_mem_preserved ms (sweep ttl now acc m) _ ?_ ?_
        · intro m' hm'' heq
          exact hms.1 (heq ▸ List.mem_map_of_mem Entry.ins hm'')
        · unfold sweep
          rw [if_neg (by simp [hexp])]
          exact List.mem_cons_self _ _
    · exact ih (sweep ttl now acc m0) (sweep_nodup acc m0 hacc) hms.2 m hm'

theorem idxMatches_ins_nodup {p : V → Bool} {s : EState V}
    (hN : (s.seq.map Entry.ins).Nodup) :
    ((idxMatches p s).map Entry.ins).Nodup := by
  have hfil : ((s.seq.filter (fun e => p e.value)).map Entry.ins).Nodup :=
    ((List.filter_sublist s.seq).map Entry.ins).nodup hN
  exact (((sortByIns_perm _).map Entry.ins).nodup_iff).mpr hfil

theorem mem_idxMatches {p : V → Bool} {s : EState V} {e : Entry V} :
    e ∈ idxMatches p s ↔ e ∈ s.seq ∧ p e.value = true := by
  unfold idxMatches
  rw [mem_sortByIns, List.mem_filter]

theorem filter_of_ins_ne {i : Nat} {l : List (Entry V)}
    (h : ∀ x ∈ l, x.ins ≠ i) :
    l.filter (fun x => !(x.ins == i)) = l := by
  induction l with
  | nil => rfl
  | cons a l ih =>
    rw [List.filter_cons_of_pos (by simp [h a (List.mem_cons_self a l)])]
    rw [ih (fun x hx => h x (List.mem_cons_of_mem a hx))]

theorem eraseP_ins_eq_filter {i : Nat} {l : List (Entry V)}
    (hN : (l.map Entry.ins).Nodup) :
    l.eraseP (fun x => x.ins == i) = l.filter (fun x => !(x.ins == i)) := by
  induction l with
  | nil => rfl
  | cons a l ih =>
    simp only [List.map_cons, List.nodup_cons] at hN
    by_cases ha : a.ins = i
    · rw [List.eraseP_cons_of_pos (by simp [ha]),
        List.filter_cons_of_neg (by simp [ha])]
      refine (filter_of_ins_ne ?_).symm
      intro x hx hxi
      apply hN.1
      rw [ha, ← hxi]
      exact List.mem_map_of_mem Entry.ins hx
    · rw [List.eraseP_cons_of_neg (by simp [ha]),
        List.filter_cons_of_pos (by simp [ha])]
      rw [ih hN.2]

theorem eraseP_stamp_of_found {p : Entry V → Bool} {l : List (Entry V)} {e : Entry V}
    (hN : (l.map Entry.ins).Nodup) (hf : l.find? p = some e) :
    ∀ x ∈ l.eraseP p, x.ins ≠ e.ins := by
  induction l with
  | nil => simp at hf
  | cons a l ih =>
    simp only [List.map_cons, List.nodup_cons] at hN
    by_cases hpa : p a
    · rw [List.find?_cons_of_pos l hpa] at hf
      have hea : e = a := (Option.some_inj.mp hf).symm
      subst hea
      rw [List.eraseP_cons_of_pos hpa]
      intro x hx hxi
      apply hN.1
      rw [← hxi]
      exact List.mem_map_of_mem Entry.ins hx
    · rw [List.find?_cons_of_neg l hpa] at hf
      rw [List.eraseP_cons_of_neg hpa]
      intro x hx
      rcases List.mem_cons.mp hx with rfl | hx'
      · intro hxi
        apply hN.1
        rw [hxi]
        exact List.mem_map_of_mem Entry.ins (List.mem_of_find?_eq_some hf)
      · exact ih hN.2 hf x hx'

theorem sweep_foldl_nodup {ttl now : Nat} :
    ∀ (ms : List (Entry V)) (acc : List (Entry V) × Bool),
      (acc.1.map Entry.ins).Nodup →
      (((ms.foldl (sweep ttl now) acc).1).map Entry.ins).Nodup := by
  intro ms
  induction ms with
  | nil => intro acc h; exact h
  | cons m ms ih => intro acc h; exact ih _ (sweep_nodup acc m h)

theorem mem_sweep_foldl_refresh {ttl now : Nat} :
    ∀ (ms : List (Entry V)) (acc : List (Entry V) × Bool) (x : Entry V),
      x ∈ (ms.foldl (sweep ttl now) acc).1 →
      x ∈ acc.1 ∨ ∃ m ∈ ms, x = { m with last_accessed := now } := by
  intro ms
  induction ms with
  | nil => intro acc x hx; exact Or.inl hx
  | cons m ms ih =>
    intro acc x hx
    rcases ih (sweep ttl now acc m) x hx with hstep | ⟨m', hm', rfl⟩
    · unfold sweep at hstep
      by_cases hexp : expired ttl now m
      · rw [if_pos hexp] at hstep
        exact Or.inl (mem_of_mem_eraseP hstep)
      · rw [if_neg hexp] at hstep
        rcases List.mem_cons.mp hstep with rfl | h'
        · exact Or.inr ⟨m, List.mem_cons_self m ms, rfl⟩
        · exact Or.inl (mem_of_mem_eraseP h')
    · exact Or.inr ⟨m', List.mem_cons_of_mem m hm', rfl⟩

/-- Full shape of the `equal_range` scan: the refreshed live items of the
range form the head of the resulting Recency List, the most recently
relocated (the last of the range in index order) first, followed by the
remaining entries — i.e. every live item of the range was moved to the
Recency head, and everything outside the range kept its relative order. -/
theorem sweep_foldl_shape {ttl now : Nat} :
    ∀ (ms : List (Entry V)) (acc : List (Entry V) × Bool),
      (acc.1.map Entry.ins).Nodup → (ms.map Entry.ins).Nodup →
      (∀ m ∈ ms, m ∈ acc.1) →
      (ms.foldl (sweep ttl now) acc).1 =
        ((ms.filter (fun m => !(expired ttl now m))).map
            (fun m => { m with last_accessed := now })).reverse
          ++ dropMatchesIns ms acc.1 := by
  intro ms
  induction ms with
  | nil =>
    intro acc _ _ _
    simp only [List.foldl_nil, List.filter_nil, List.map_nil, List.reverse_nil,
      List.nil_append, dropMatchesIns, List.any_nil, Bool.not_false]
    exact (List.filter_eq_self.mpr (fun a _ => rfl)).symm
  | cons m0 ms ih =>
    intro acc hacc hms hsub
    simp only [List.map_cons, List.nodup_cons] at hms
    have hkey : acc.1.eraseP (fun x => x.ins == m0.ins) =
        acc.1.filter (fun x => !(x.ins == m0.ins)) := eraseP_ins_eq_filter hacc
    have hdrop : dropMatchesIns ms (acc.1.filter (fun x => !(x.ins == m0.ins))) =
        dropMatchesIns (m0 :: ms) acc.1 := by
      unfold dropMatchesIns
      rw [List.filter_filter]
      refine List.filter_congr ?_
      intro x _
      rw [List.any_cons, Bool.not_or, Bool.and_comm]
    have hsub' : ∀ m ∈ ms, m ∈ acc.1.eraseP (fun x => x.ins == m0.ins) := by
      intro m hm
      refine mem_eraseP_of_not (hsub m (List.mem_cons_of_mem m0 hm)) ?_
      simp only [beq_eq_false_iff_ne, ne_eq]
      intro hmi
      exact hms.1 (by rw [← hmi]; exact List.mem_map_of_mem Entry.ins hm)
    by_cases hexp : expired ttl now m0
    · have hstep : sweep ttl now acc m0 =
          (acc.1.eraseP (fun x => x.ins == m0.ins), true) := by
        unfold sweep
        rw [if_pos hexp]
      have hfoldl : (List.foldl (sweep ttl now) acc (m0 :: ms)).1 =
          (List.foldl (sweep ttl now)
            (acc.1.eraseP (fun x => x.ins == m0.ins), true) ms).1 := by
        rw [List.foldl_cons, hstep]
      rw [hfoldl,
        ih (acc.1.eraseP (fun x => x.ins == m0.ins), true)
          (nodup_ins_eraseP hacc) hms.2 hsub']
      rw [List.filter_cons_of_neg (by simp [hexp])]
      rw [hkey, hdrop]
    · have hlive : (fun m => !(expired ttl now m)) m0 = true := by simp [hexp]
      have hstep : sweep ttl now acc m0 =
          ({ m0 with last_accessed := now } ::
            acc.1.eraseP (fun x => x.ins == m0.ins), acc.2) := by
        unfold sweep
        rw [if_neg hexp]
      have hnodup' : ((({ m0 with last_accessed := now } ::
          acc.1.eraseP (fun x => x.ins == m0.ins)) : List (Entry V)).map
            Entry.ins).Nodup := by
        have h2 := @sweep_nodup V ttl now acc m0 hacc
        rw [hstep] at h2
        exact h2
      have hsub'' : ∀ m ∈ ms, m ∈ ({ m0 with last_accessed := now } ::
          acc.1.eraseP (fun x => x.ins == m0.ins)) :=
        fun m hm => List.mem_cons_of_mem _ (hsub' m hm)
      have hfoldl : (List.foldl (sweep ttl now) acc (m0 :: ms)).1 =
          (List.foldl (sweep ttl now)
            ({ m0 with last_accessed := now } ::
              acc.1.eraseP (fun x => x.ins == m0.ins), acc.2) ms).1 := by
        rw [List.foldl_cons, hstep]
      have hany : (ms.any (fun m =>
          ({ m0 with last_accessed := now } : Entry V).ins == m.ins)) = false := by
        rw [List.any_eq_false]
        intro m hm
        simp only [beq_iff_eq]
        intro hmm
        exact hms.1 (by rw [hmm]; exact List.mem_map_of_mem Entry.ins hm)
      have hconsd : dropMatchesIns ms ({ m0 with last_accessed := now } ::
          acc.1.eraseP (fun x => x.ins == m0.ins)) =
          { m0 with last_accessed := now } ::
            dropMatchesIns ms (acc.1.eraseP (fun x => x.ins == m0.ins)) := by
        unfold dropMatchesIns
        rw [List.filter_cons_of_pos (by simp [hany])]
      rw [hfoldl, ih _ hnodup' hms.2 hsub'', hconsd, hkey, hdrop]
      rw [List.filter_cons_of_pos (p := fun m => !(expired ttl now m)) hlive,
        List.map_cons, List.reverse_cons, List.append_assoc]
      rfl

theorem estep_ins_sources (conflict : V → V → Bool) (op : EOp V) (s : EState V) :
    ∀ x ∈ (estep conflict s op).seq,
      (∃ y ∈ s.seq, x.ins = y.ins) ∨
        (x.ins = s.nextIns ∧ (estep conflict s op).nextIns = s.nextIns + 1) := by
  cases op with
  | emplace v now | insert v now =>
    intro x hx
    have hx1 : x ∈ (emplaceE conflict v now s).1.seq := hx
    cases hf : s.seq.find? (fun e => conflict e.value v) with
    | some e =>
      rw [emplaceE_of_find?_some hf] at hx1
      rcases List.mem_cons.mp hx1 with rfl | hx'
      · exact Or.inl ⟨e, List.mem_of_find?_eq_some hf, rfl⟩
      · exact Or.inl ⟨x, mem_of_mem_eraseP hx', rfl⟩
    | none =>
      have hnext : (emplaceE conflict v now s).1.nextIns = s.nextIns + 1 := by
        rw [emplaceE_of_find?_none hf]
      rw [emplaceE_of_find?_none hf] at hx1
      by_cases hc : s.cap < ((⟨v, now, s.nextIns⟩ : Entry V) :: s.seq).length
      · rw [if_pos hc] at hx1
        have hx2 := List.mem_of_mem_dropLast hx1
        rcases List.mem_cons.mp hx2 with rfl | hx'
        · exact Or.inr ⟨rfl, hnext⟩
        · exact Or.inl ⟨x, hx', rfl⟩
      · rw [if_neg hc] at hx1
        rcases List.mem_cons.mp hx1 with rfl | hx'
        · exact Or.inr ⟨rfl, hnext⟩
        · exact Or.inl ⟨x, hx', rfl⟩
  | find p now | contains p now =>
    intro x hx
    have hx1 : x ∈ (findE p now s).1.seq := hx
    cases hfind : idxFind p s with
    | none =>
      unfold findE at hx1
      rw [hfind] at hx1
      exact Or.inl ⟨x, hx1, rfl⟩
    | some e =>
      rw [findE_of_idxFind_some hfind] at hx1
      by_cases hexp : expired s.ttl now e
      · rw [if_pos hexp] at hx1
        exact Or.inl ⟨x, mem_of_mem_eraseP hx1, rfl⟩
      · rw [if_neg hexp] at hx1
        rcases List.mem_cons.mp hx1 with rfl | hx'
        · exact Or.inl ⟨e, (idxFind_mem hfind).1, rfl⟩
        · exact Or.inl ⟨x, mem_of_mem_eraseP hx', rfl⟩
  | findNoUpdate p =>
    intro x hx
    exact Or.inl ⟨x, hx, rfl⟩
  | equalRange p now =>
    intro x hx
    have hx1 : x ∈ ((idxMatches p s).foldl (sweep s.ttl now) (s.seq, false)).1 := hx
    rcases mem_sweep_foldl_refresh (idxMatches p s) (s.seq, false) x hx1 with
      hold | ⟨m, hm, rfl⟩
    · exact Or.inl ⟨x, hold, rfl⟩
    · exact Or.inl ⟨m, (mem_idxMatches.mp hm).1, rfl⟩
  | equalRangeNoUpdate p =>
    intro x hx
    exact Or.inl ⟨x, hx, rfl⟩
  | erase p =>
    intro x hx
    exact Or.inl ⟨x, List.mem_of_mem_filter hx, rfl⟩
  | setCapacity n =>
    intro x hx
    exact Or.inl ⟨x, List.mem_of_mem_take hx, rfl⟩
  | setTtl t =>
    intro x hx
    by_cases ht : t ≤ 0
    · have hstep : estep conflict s (EOp.setTtl t) = s := by
        show (match setTtl t s with | .ok s2 => s2 | .error _ => s) = s
        unfold setTtl
        rw [if_pos ht]
      rw [hstep] at hx
      exact Or.inl ⟨x, hx, rfl⟩
    · have hstep : estep conflict s (EOp.setTtl t) = { s with ttl := t.toNat } := by
        show (match setTtl t s with | .ok s2 => s2 | .error _ => s) = _
        unfold setTtl
        rw [if_neg ht]
      rw [hstep] at hx
      exact Or.inl ⟨x, hx, rfl⟩
  | cleanup now =>
    intro x hx
    have hx1 : x ∈ (s.seq.reverse.dropWhile (expired s.ttl now)).reverse := hx
    have h1 := List.mem_reverse.mp hx1
    have h2 : x ∈ s.seq.reverse := (List.dropWhile_sublist _).subset h1
    exact Or.inl ⟨x, List.mem_reverse.mp h2, rfl⟩
  | clear =>
    intro x hx
    simp [estep, clearE] at hx

theorem estep_nextIns_ge (conflict : V → V → Bool) (op : EOp V) (s : EState V) :
    s.nextIns ≤ (estep conflict s op).nextIns := by
  cases op with
  | emplace v now | insert v now =>
    show s.nextIns ≤ (emplaceE conflict v now s).1.nextIns
    cases hf : s.seq.find? (fun e => conflict e.value v) with
    | some e =>
      rw [emplaceE_of_find?_some hf]
    | none =>
      rw [emplaceE_of_find?_none hf]
      exact Nat.le_succ _
  | find p now | contains p now =>
    show s.nextIns ≤ (findE p now s).1.nextIns
    cases hfind : idxFind p s with
    | none =>
      unfold findE
      rw [hfind]
    | some e =>
      rw [findE_of_idxFind_some hfind]
      by_cases hexp : expired s.ttl now e
      · rw [if_pos hexp]
      · rw [if_neg hexp]
  | findNoUpdate p => exact Nat.le_refl _
  | equalRange p now => exact Nat.le_refl _
  | equalRangeNoUpdate p => exact Nat.le_refl _
  | erase p => exact Nat.le_refl _
  | setCapacity n => exact Nat.le_refl _
  | setTtl t =>
    by_cases ht : t ≤ 0
    · have hstep : estep conflict s (EOp.setTtl t) = s := by
        show (match setTtl t s with | .ok s2 => s2 | .error _ => s) = s
        unfold setTtl
        rw [if_pos ht]
      rw [hstep]
    · have hstep : estep conflict s (EOp.setTtl t) = { s with ttl := t.toNat } := by
        show (match setTtl t s with | .ok s2 => s2 | .error _ => s) = _
        unfold setTtl
        rw [if_neg ht]
      rw [hstep]
  | cleanup now => exact Nat.le_refl _
  | clear => exact Nat.le_refl _

theorem estep_nodup (conflict : V → V → Bool) (op : EOp V) (s : EState V)
    (hN : (s.seq.map Entry.ins).Nodup) (hB : ∀ e ∈ s.seq, e.ins < s.nextIns) :
    (((estep conflict s op).seq).map Entry.ins).Nodup := by
  cases op with
  | emplace v now | insert v now =>
    show (((emplaceE conflict v now s).1.seq).map Entry.ins).Nodup
    cases hf : s.seq.find? (fun e => conflict e.value v) with
    | some e =>
      rw [emplaceE_of_find?_some hf]
      simp only [List.map_cons, List.nodup_cons]
      refine ⟨?_, nodup_ins_eraseP hN⟩
      intro hmem
      rcases List.mem_map.mp hmem with ⟨y, hy, hyi⟩
      exact eraseP_stamp_of_found hN hf y hy hyi
    | none =>
      rw [emplaceE_of_find?_none hf]
      have hnodup : (((⟨v, now, s.nextIns⟩ : Entry V) :: s.seq).map Entry.ins).Nodup := by
        simp only [List.map_cons, List.nodup_cons]
        refine ⟨?_, hN⟩
        intro hmem
        rcases List.mem_map.mp hmem with ⟨y, hy, hyi⟩
        exact Nat.ne_of_lt (hB y hy) hyi
      by_cases hc : s.cap < ((⟨v, now, s.nextIns⟩ : Entry V) :: s.seq).length
      · rw [if_pos hc]
        exact ((List.dropLast_sublist _).map Entry.ins).nodup hnodup
      · rw [if_neg hc]
        exact hnodup
  | find p now | contains p now =>
    show (((findE p now s).1.seq).map Entry.ins).Nodup
    cases hfind : idxFind p s with
    | none =>
      unfold findE
      rw [hfind]
      exact hN
    | some e =>
      rw [findE_of_idxFind_some hfind]
      by_cases hexp : expired s.ttl now e
      · rw [if_pos hexp]
        exact nodup_ins_eraseP hN
      · rw [if_neg hexp]
        simp only [List.map_cons, List.nodup_cons]
        refine ⟨?_, nodup_ins_eraseP hN⟩
        intro hmem
        rcases List.mem_map.mp hmem with ⟨y, hy, hyi⟩
        exact eraseP_ins_not_mem s.seq hN y hy hyi
  | findNoUpdate p => exact hN
  | equalRange p now => exact sweep_foldl_nodup (idxMatches p s) (s.seq, false) hN
  | equalRangeNoUpdate p => exact hN
  | erase p => exact ((List.filter_sublist _).map Entry.ins).nodup hN
  | setCapacity n => exact ((List.take_sublist _ _).map Entry.ins).nodup hN
  | setTtl t =>
    by_cases ht : t ≤ 0
    · have hstep : estep conflict s (EOp.setTtl t) = s := by
        show (match setTtl t s with | .ok s2 => s2 | .error _ => s) = s
        unfold setTtl
        rw [if_pos ht]
      rw [hstep]
      exact hN
    · have hstep : estep conflict s (EOp.setTtl t) = { s with ttl := t.toNat } := by
        show (match setTtl t s with | .ok s2 => s2 | .error _ => s) = _
        unfold setTtl
        rw [if_neg ht]
      rw [hstep]
      exact hN
  | cleanup now =>
    have hsub : ((s.seq.reverse.dropWhile (expired s.ttl now)).reverse).Sublist s.seq := by
      have h2 := (List.dropWhile_sublist (l := s.seq.reverse) (expired s.ttl now)).reverse
      rwa [List.reverse_reverse] at h2
    exact (hsub.map Entry.ins).nodup hN
  | clear => simp [estep, clearE]

theorem estep_preserves_wf (conflict : V → V → Bool) (op : EOp V) (s : EState V)
    (h : wfE s) : wfE (estep conflict s op) := by
  obtain ⟨hN, hB⟩ := h
  refine ⟨estep_nodup conflict op s hN hB, ?_⟩
  intro x hx
  rcases estep_ins_sources conflict op s x hx with ⟨y, hy, hxy⟩ | ⟨hxn, hnext⟩
  · rw [hxy]
    exact lt_of_lt_of_le (hB y hy) (estep_nextIns_ge conflict op s)
  · rw [hxn, hnext]
    exact Nat.lt_succ_self _

theorem estep_timesLE_none {conflict : V → V → Bool} {op : EOp V} {s : EState V}
    {T : Nat} (h : ∀ e ∈ s.seq, e.last_accessed ≤ T) (hA : op.accessTime = none) :
    ∀ e ∈ (estep conflict s op).seq, e.last_accessed ≤ T := by
  intro e he
  rcases estep_entry_sources conflict op s e he with hold | ⟨t, ht, _⟩
  · exact h e hold
  · rw [hA] at ht
    cases ht

theorem estep_timesLE_some {conflict : V → V → Bool} {op : EOp V} {s : EState V}
    {T t : Nat} (h : ∀ e ∈ s.seq, e.last_accessed ≤ T) (hA : op.accessTime = some t)
    (hT : T ≤ t) :
    ∀ e ∈ (estep conflict s op).seq, e.last_accessed ≤ t := by
  intro e he
  rcases estep_entry_sources conflict op s e he with hold | ⟨t', ht', hlast⟩
  · exact le_trans (h e hold) hT
  · rw [hA] at ht'
    have htt : t = t' := Option.some_inj.mp ht'
    rw [hlast, ← htt]

/-- Per-step monotonicity: when the clock value read inside an operation
is at least every current timestamp (the steady clock guarantees this),
no entry's `last_accessed` decreases across the operation. -/
theorem estep_mono_step {conflict : V → V → Bool} {op : EOp V} {s : EState V}
    (hN : (s.seq.map Entry.ins).Nodup)
    (hclock : ∀ t, op.accessTime = some t → ∀ e ∈ s.seq, e.last_accessed ≤ t) :
    ∀ x ∈ s.seq, ∀ y ∈ (estep conflict s op).seq,
      y.ins = x.ins → x.last_accessed ≤ y.last_accessed := by
  intro x hx y hy heq
  rcases estep_entry_sources conflict op s y hy with hold | ⟨t, ht, hlast⟩
  · have hyx : y = x := List.inj_on_of_nodup_map hN hold hx heq
    rw [hyx]
  · rw [hlast]
    exact hclock t ht x hx

/-- Trace monotonicity: along any operation sequence from a well-formed
state under the steady-clock discipline, an entry's `last_accessed` never
decreases across any single further operation — composed over the steps
of an item's lifetime, its timestamp is monotonically non-decreasing. -/
theorem erun_mono {conflict : V → V → Bool} :
    ∀ (pre : List (EOp V)) (T0 : Nat) (s0 : EState V) (op : EOp V)
      (post : List (EOp V)),
      wfE s0 → (∀ e ∈ s0.seq, e.last_accessed ≤ T0) →
      clockLE T0 (pre ++ op :: post) = true →
      ∀ x ∈ (erun conflict s0 pre).seq,
        ∀ y ∈ (estep conflict (erun conflict s0 pre) op).seq,
          y.ins = x.ins → x.last_accessed ≤ y.last_accessed := by
  intro pre
  induction pre with
  | nil =>
    intro T0 s0 op post hwf hT hc
    cases hA : op.accessTime with
    | none =>
      refine estep_mono_step hwf.1 ?_
      intro t ht
      rw [hA] at ht
      cases ht
    | some t =>
      have hc1 : (decide (T0 ≤ t) && clockLE t post) = true := by
        rw [List.nil_append] at hc
        unfold clockLE at hc
        rw [hA] at hc
        exact hc
      rw [Bool.and_eq_true] at hc1
      have hle : T0 ≤ t := of_decide_eq_true hc1.1
      refine estep_mono_step hwf.1 ?_
      intro t' ht' x hx
      have htt : t = t' := by
        rw [hA] at ht'
        exact Option.some_inj.mp ht'
      rw [← htt]
      exact le_trans (hT x hx) hle
  | cons op0 pre ih =>
    intro T0 s0 op post hwf hT hc
    rw [List.cons_append] at hc
    have hrun : erun conflict s0 (op0 :: pre) =
        erun conflict (estep conflict s0 op0) pre := rfl
    cases hA : op0.accessTime with
    | none =>
      have hc' : clockLE T0 (pre ++ op :: post) = true := by
        unfold clockLE at hc
        rw [hA] at hc
        exact hc
      have hmain := ih T0 (estep conflict s0 op0) op post
        (estep_preserves_wf conflict op0 s0 hwf)
        (estep_timesLE_none hT hA) hc'
      rw [hrun]
      exact hmain
    | some t =>
      have hc1 : (decide (T0 ≤ t) && clockLE t (pre ++ op :: post)) = true := by
        unfold clockLE at hc
        rw [hA] at hc
        exact hc
      rw [Bool.and_eq_true] at hc1
      have hmain := ih t (estep conflict s0 op0) op post
        (estep_preserves_wf conflict op0 s0 hwf)
        (estep_timesLE_some hT hA (of_decide_eq_true hc1.1)) hc1.2
      rw [hrun]
      exact hmain

/-- C5: `cleanup_expired()` removes exactly a maximal expired suffix of
the Recency List: the surviving list is a prefix of the old one (entries
untouched — in particular no `last_accessed` is ever written by cleanup),
every dropped entry was expired, and the new tail, when one exists, is
not expired — so an expired item sitting ahead of a live tail survives,
as the concrete final conjunct exhibits.  The second conjunct shows, for
every public operation, that each surviving entry either is an unchanged
old entry or carries that call's clock value, and the only operations
with a clock value are the caller-visible accesses (`find`, `contains`,
`equal_range`) and `emplace`/`insert` — so `last_accessed` is modified
only by those.  The third and fourth conjuncts state monotonicity: across
any single operation whose clock value is no older than the state's
timestamps, and at every step of every operation trace obeying the
steady-clock discipline from a well-formed state, an entry's
`last_accessed` never decreases — it is monotonically non-decreasing over
the item's lifetime. -/
theorem cleanup_expired_spec :
    (∀ (V : Type) (now : Nat) (s : EState V),
        (∃ dropped, s.seq = (cleanupExpired now s).seq ++ dropped ∧
            ∀ e ∈ dropped, expired s.ttl now e = true) ∧
        (∀ e, (cleanupExpired now s).seq.getLast? = some e →
            expired s.ttl now e = false) ∧
        (∀ x ∈ (cleanupExpired now s).seq, x ∈ s.seq) ∧
        (cleanupExpired now s).ttl = s.ttl ∧ (cleanupExpired now s).cap = s.cap) ∧
    (∀ (V : Type) (conflict : V → V → Bool) (op : EOp V) (s : EState V),
        ∀ x ∈ (estep conflict s op).seq,
          x ∈ s.seq ∨ ∃ t, op.accessTime = some t ∧ x.last_accessed = t) ∧
    (∀ (V : Type) (conflict : V → V → Bool) (op : EOp V) (s : EState V),
        (s.seq.map Entry.ins).Nodup →
        (∀ t, op.accessTime = some t → ∀ e ∈ s.seq, e.last_accessed ≤ t) →
        ∀ x ∈ s.seq, ∀ y ∈ (estep conflict s op).seq,
          y.ins = x.ins → x.last_accessed ≤ y.last_accessed) ∧
    (∀ (V : Type) (conflict : V → V → Bool) (T0 : Nat) (s0 : EState V)
        (pre : List (EOp V)) (op : EOp V) (post : List (EOp V)),
        wfE s0 → (∀ e ∈ s0.seq, e.last_accessed ≤ T0) →
        clockLE T0 (pre ++ op :: post) = true →
        ∀ x ∈ (erun conflict s0 pre).seq,
          ∀ y ∈ (estep conflict (erun conflict s0 pre) op).seq,
            y.ins = x.ins → x.last_accessed ≤ y.last_accessed) ∧
    (cleanupExpired 100 (⟨[⟨1, 0, 0⟩, ⟨2, 60, 1⟩], 10, 50, 2⟩ : EState Nat) =
      ⟨[⟨1, 0, 0⟩, ⟨2, 60, 1⟩], 10, 50, 2⟩) ∧
    (cleanupExpired 200 (⟨[⟨1, 0, 0⟩, ⟨2, 60, 1⟩], 10, 50, 2⟩ : EState Nat) =
      ⟨[], 10, 50, 2⟩) := by
  refine ⟨?_, ?_, ?_, ?_, by decide, by decide⟩
  · intro V now s
    refine ⟨?_, ?_, ?_, rfl, rfl⟩
    · refine ⟨(s.seq.reverse.takeWhile (expired s.ttl now)).reverse, ?_, ?_⟩
      · rw [cleanupExpired_seq]
        calc s.seq = s.seq.reverse.reverse := (List.reverse_reverse _).symm
          _ = (s.seq.reverse.takeWhile (expired s.ttl now) ++
                s.seq.reverse.dropWhile (expired s.ttl now)).reverse := by
                rw [List.takeWhile_append_dropWhile]
          _ = (s.seq.reverse.dropWhile (expired s.ttl now)).reverse ++
                (s.seq.reverse.takeWhile (expired s.ttl now)).reverse := by
                rw [List.reverse_append]
      · intro e he
        exact List.mem_takeWhile_imp (List.mem_reverse.mp he)
    · intro e he
      rw [cleanupExpired_seq, List.getLast?_reverse] at he
      have := List.head?_dropWhile_not (expired s.ttl now) s.seq.reverse
      rw [he] at this
      exact this
    · intro x hx
      rw [cleanupExpired_seq] at hx
      have h1 : x ∈ s.seq.reverse.dropWhile (expired s.ttl now) :=
        List.mem_reverse.mp hx
      have h2 : x ∈ s.seq.reverse := (List.dropWhile_sublist _).subset h1
      exact List.mem_reverse.mp h2
  · intro V conflict op s
    exact estep_entry_sources conflict op s
  · intro V conflict op s hN hclock
    exact estep_mono_step hN hclock
  · intro V conflict T0 s0 pre op post hwf hT hc
    exact erun_mono pre T0 s0 op post hwf hT hc

theorem cleanup_expired_spec_witness :
    expired (⟨[⟨1, 0, 0⟩, ⟨2, 60, 1⟩], 10, 50, 2⟩ : EState Nat).ttl 100
      ⟨2, 60, 1⟩ = false ∧
    (⟨2, 60, 1⟩ : Entry Nat) ∈
      (cleanupExpired 100 (⟨[⟨1, 0, 0⟩, ⟨2, 60, 1⟩], 10, 50, 2⟩ : EState Nat)).seq ∧
    (⟨7, 10, 0⟩ : Entry Nat).last_accessed ≤
      (⟨7, 20, 0⟩ : Entry Nat).last_accessed :=
  ⟨(cleanup_expired_spec.1 Nat 100 ⟨[⟨1, 0, 0⟩, ⟨2, 60, 1⟩], 10, 50, 2⟩).2.1
      ⟨2, 60, 1⟩ (by decide),
   by decide,
   cleanup_expired_spec.2.2.2.1 Nat (fun a b => a == b) 0 ⟨[], 5, 50, 0⟩
     [EOp.emplace 7 10] (EOp.find (fun v => v == 7) 20) []
     ⟨by decide, by decide⟩
     (by intro e he; cases he)
     (by decide)
     ⟨7, 10, 0⟩ (by decide)
     ⟨7, 20, 0⟩ (by decide)
     rfl⟩

/-- The P7 scenario container: a non-unique key (first component) shared
by two entries, both last accessed at time 0 with TTL 50. -/
def sweepState : EState (Nat × Nat) :=
  ⟨[⟨(1, 10), 40, 0⟩, ⟨(1, 20), 0, 1⟩], 10, 50, 2⟩

/-- C4: the TTL wrapper's `equal_range` over a non-unique index.  Every
expired item of the key's range is erased (the scan runs to the end of
the range, past erasures); every live item of the range gets
`last_accessed = now` and is moved to the Recency head — the fifth
conjunct shows the refreshed live items of the range form the head of the
resulting Recency List, most recently relocated first; items not in the
range are untouched; the returned range never contains an expired item
(it is recomputed from scratch whenever an erasure occurred) and contains
only items matching the key.  In particular (P7), with two items sharing
the key and both older than TTL, `equal_range` returns an empty range and
removes both items. -/
theorem expirable_equal_range_spec (V : Type) (p : V → Bool) (now : Nat)
    (s : EState V) (hN : (s.seq.map Entry.ins).Nodup) :
    (∀ e ∈ s.seq, p e.value = true → expired s.ttl now e = true →
        ∀ x ∈ (equalRangeE p now s).1.seq, x.ins ≠ e.ins) ∧
    (∀ e ∈ s.seq, p e.value = true → expired s.ttl now e = false →
        { e with last_accessed := now } ∈ (equalRangeE p now s).1.seq) ∧
    (∀ x ∈ s.seq, p x.value = false → x ∈ (equalRangeE p now s).1.seq) ∧
    (∀ x ∈ (equalRangeE p now s).2,
        p x.value = true ∧ expired s.ttl now x = false) ∧
    ((equalRangeE p now s).1.seq =
        (((idxMatches p s).filter (fun m => !(expired s.ttl now m))).map
            (fun m => { m with last_accessed := now })).reverse
          ++ dropMatchesIns (idxMatches p s) s.seq) ∧
    (equalRangeE (fun v : Nat × Nat => v.1 == 1) 70
        ⟨[⟨(1, 10), 0, 0⟩, ⟨(1, 20), 0, 1⟩], 10, 50, 2⟩ =
      (⟨[], 10, 50, 2⟩, [])) := by
  have hmsN := idxMatches_ins_nodup (p := p) hN
  refine ⟨?_, ?_, ?_, ?_,
    sweep_foldl_shape (idxMatches p s) (s.seq, false) hN hmsN
      (fun m hm => (mem_idxMatches.mp hm).1),
    by decide⟩
  · intro e he hpe hexp x hx
    have hx1 : x ∈ ((idxMatches p s).foldl (sweep s.ttl now) (s.seq, false)).1 := hx
    exact (sweep_foldl_spec (idxMatches p s) (s.seq, false) hN hmsN e
      (mem_idxMatches.mpr ⟨he, hpe⟩)).1 hexp x hx1
  · intro e he hpe hexp
    exact (sweep_foldl_spec (idxMatches p s) (s.seq, false) hN hmsN e
      (mem_idxMatches.mpr ⟨he, hpe⟩)).2 hexp
  · intro x hx hpx
    refine sweep_foldl_mem_preserved (idxMatches p s) (s.seq, false) x ?_ hx
    intro m hm heq
    have hmm := mem_idxMatches.mp hm
    have : m = x := List.inj_on_of_nodup_map hN hmm.1 hx heq
    rw [this] at hmm
    rw [hmm.2] at hpx
    cases hpx
  · intro x hx
    have hrange : (equalRangeE p now s).2 =
        if ((idxMatches p s).foldl (sweep s.ttl now) (s.seq, false)).2 then
          sortByIns
            ((((idxMatches p s).foldl (sweep s.ttl now) (s.seq, false)).1).filter
              (fun e => p e.value))
        else (idxMatches p s).map (fun m => { m with last_accessed := now }) := rfl
    rw [hrange] at hx
    by_cases hch : ((idxMatches p s).foldl (sweep s.ttl now) (s.seq, false)).2
    · rw [if_pos hch] at hx
      have hx1 := mem_sortByIns.mp hx
      have hpx := (List.mem_filter.mp hx1).2
      have hx2 := List.mem_of_mem_filter hx1
      refine ⟨hpx, ?_⟩
      by_cases hex : expired s.ttl now x
      · rcases mem_sweep_foldl (idxMatches p s) (s.seq, false) x hx2 with hold | hlast
        · exact absurd rfl
            ((sweep_foldl_spec (idxMatches p s) (s.seq, false) hN hmsN x
              (mem_idxMatches.mpr ⟨hold, hpx⟩)).1 hex x hx2)
        · exact expired_of_last_eq_now hlast
      · exact Bool.of_not_eq_true hex
    · rw [if_neg hch] at hx
      rcases List.mem_map.mp hx with ⟨m, hm, rfl⟩
      exact ⟨(mem_idxMatches.mp hm).2, expired_of_last_eq_now rfl⟩

theorem expirable_equal_range_spec_witness :
    ((⟨(1, 10), 60, 0⟩ : Entry (Nat × Nat)) ∈
      (equalRangeE (fun v : Nat × Nat => v.1 == 1) 60 sweepState).1.seq) ∧
    ((⟨(1, 10), 60, 0⟩ : Entry (Nat × Nat)).ins ≠
      (⟨(1, 20), 0, 1⟩ : Entry (Nat × Nat)).ins) := by
  have h := expirable_equal_range_spec (Nat × Nat) (fun v => v.1 == 1) 60
    sweepState (by decide)
  have hm := h.2.1 ⟨(1, 10), 40, 0⟩ (by decide) (by decide) (by decide)
  exact ⟨hm,
    h.1 ⟨(1, 20), 0, 1⟩ (by decide) (by decide) (by decide) ⟨(1, 10), 60, 0⟩ hm⟩

end MILru
